import Mathlib

set_option linter.unusedVariables false

namespace Arbolito

/-- One input edge of the tree, as described by the caller (src/lib.rs `Edge`).
`parent` is `none` for an edge hanging off the conceptual root, otherwise the
`number` of the parent edge.  Bytes are modelled as `Nat` (< 256 wherever the
source stores them in a `u8`). -/
structure Edge where
  parent : Option Nat
  label : Nat
  number : Nat
  has_value : Bool
  has_branch : Bool
  deriving DecidableEq

/-- Result of a traversal (src/lib.rs `Lookup`). -/
inductive Lookup where
  | none
  | branch (r : Nat)
  | value (r : Nat)
  deriving DecidableEq

/-- The state of `build_tree`'s DFS loop (src/lib.rs, lines 117-158).
`packed_edges`/`packed_nodes` are the two 16-byte arrays (initialised to
`0b0000_0000` and `0b1001_1111 = 159`), `next_dfs` the next free DFS slot,
`dfs` the `dfs_assignments` map (`number -> slot`, modelled as an association
list with fresh keys consed on), `stack` the DFS work stack with the list head
as the top of the `Vec`. -/
structure BuildState where
  packed_edges : Fin 16 → Nat
  packed_nodes : Fin 16 → Nat
  next_dfs : Nat
  dfs : List (Nat × Nat)
  stack : List (Option Edge × Nat)

instance : Inhabited BuildState :=
  ⟨{ packed_edges := fun _ => 0
     packed_nodes := fun _ => 159
     next_dfs := 0
     dfs := []
     stack := [] }⟩

/-- `edges.range(Edge::bound(k)..Edge::bound(k.map(+1)))` from the source:
since `Edge`'s derived order is lexicographic on `(parent, label, number, ...)`
and `Edge::bound` has all other fields minimal, the range holds exactly the
edges whose `parent` equals the key, in input (sorted-set) order.  The model
takes the `BTreeSet` as its sorted list of elements, so this is a filter. -/
def children (l : List Edge) (key : Option Nat) : List Edge :=
  l.filter (fun e => decide (e.parent = key))

/-- The child frames pushed for one popped frame.  The source pushes the
children onto the `Vec` in reverse order so they pop in input order; with the
list head as top of stack this is a prepend in input order. -/
def frameList (l : List Edge) (key : Option Nat) (d : Nat) : List (Option Edge × Nat) :=
  (children l key).map (fun e => (some e, d))

/-- Write one lane of a 16-byte array. -/
def writeLane (v : Fin 16 → Nat) (i : Fin 16) (x : Nat) : Fin 16 → Nat :=
  fun j => if j = i then x else v j

/-- `if edge.has_value { parent_byte |= 1 << 6 } if edge.has_branch { parent_byte |= 1 << 5 }`. -/
def flagBits (edge : Edge) (base : Nat) : Nat :=
  let b1 := if edge.has_value then base ||| 64 else base
  if edge.has_branch then b1 ||| 32 else b1

/-- The `parent_byte` computation of `build_tree`: a root edge gets
`0b1000_0000`; otherwise the parent's DFS slot is looked up (the lookup map
already contains the edge itself, as in the source, where the `insert`
precedes the indexing) — an absent key is the `dfs_assignments[&input_ix]`
panic, and `assert!(dfs_ix < 32)` is the slot-range assertion. -/
def parentByte (dfs2 : List (Nat × Nat)) (edge : Edge) : Except String Nat :=
  match edge.parent with
  | some ix =>
    match dfs2.lookup ix with
    | some dIx =>
      if dIx < 32 then .ok (flagBits edge dIx)
      else .error "assertion failed: dfs_ix < 32"
    | Option.none => .error "no entry found for key"
  | Option.none => .ok (flagBits edge 128)

/-- One iteration of `build_tree`'s `while let` loop, given the popped frame
and the rest of the stack.  Mirrors the source order: depth assertion, DFS slot
assignment with the duplicate-`number` assertion, parent byte, array writes
(an out-of-range slot is the `packed_nodes[dfs_number]` index panic), then the
children are pushed. -/
def buildStep (l : List Edge) (max_depth : Nat) (frame : Option Edge × Nat)
    (rest : List (Option Edge × Nat)) (st : BuildState) : Except String BuildState :=
  if max_depth < frame.2 then .error "assertion failed: depth <= max_depth"
  else
    match frame.1 with
    | Option.none =>
      .ok { st with stack := frameList l Option.none (frame.2 + 1) ++ rest }
    | some edge =>
      match st.dfs.lookup edge.number with
      | some _ => .error "assertion failed: insert is_none"
      | Option.none =>
        match parentByte ((edge.number, st.next_dfs) :: st.dfs) edge with
        | .error e => .error e
        | .ok pb =>
          if h16 : st.next_dfs < 16 then
            .ok { packed_edges := writeLane st.packed_edges ⟨st.next_dfs, h16⟩ edge.label
                  packed_nodes := writeLane st.packed_nodes ⟨st.next_dfs, h16⟩ pb
                  next_dfs := st.next_dfs + 1
                  dfs := (edge.number, st.next_dfs) :: st.dfs
                  stack := frameList l (some edge.number) (frame.2 + 1) ++ rest }
          else .error "index out of bounds"

/-- The DFS loop of `build_tree`, fuelled.  The source loop always terminates
(each successful edge visit claims a fresh slot and at most 16 slots exist, so
pushes are bounded); the fuel passed by `build_tree` exceeds that bound, so
running out of fuel is unreachable and is conflated with the error outcome. -/
def buildLoop (l : List Edge) (max_depth : Nat) : Nat → BuildState → Except String BuildState
  | 0, _ => .error "out of fuel"
  | fuel + 1, st =>
    match st.stack with
    | [] => .ok st
    | frame :: rest =>
      match buildStep l max_depth frame rest st with
      | .ok st1 => buildLoop l max_depth fuel st1
      | .error e => .error e

/-- Fuel that strictly dominates the source loop's iteration count. -/
def buildFuel (l : List Edge) : Nat := 20 * (l.length + 2)

/-- `build_tree(edges, max_depth)` (src/lib.rs lines 117-158), returning the
whole final loop state (the source returns only the two arrays; the DFS
assignment map is kept as ghost state for the numbering theorems). -/
def build_tree (l : List Edge) (max_depth : Nat) : Except String BuildState :=
  buildLoop l max_depth (buildFuel l)
    { packed_edges := fun _ => 0
      packed_nodes := fun _ => 159
      next_dfs := 0
      dfs := []
      stack := [(Option.none, 0)] }

/-- `ByteTrie16::new` (src/lib.rs lines 16-22): the edge-count assertion, then
the build. -/
def ByteTrie16_new (l : List Edge) : Except String BuildState :=
  if l.length ≤ 16 then build_tree l 8
  else .error "assertion failed: edges.len() <= 16"

/-- Project a successful build result (used to state concrete facts). -/
def stOf (r : Except String BuildState) : BuildState :=
  match r with
  | .ok st => st
  | .error _ => default

/-- `edge_matches` lane `s` (src/lib.rs lines 27-40): an 8-bit value whose bit
`i` is set iff `edges[s] == query[i]`, produced by OR-ing the eight
`select(1 << i, 0)` vectors. -/
def edge_matches (pe : Fin 16 → Nat) (q : Fin 8 → Nat) (s : Fin 16) : Nat :=
  (List.finRange 8).foldl (fun a i => a ||| (if pe s = q i then 1 <<< (i : Nat) else 0)) 0

/-- The `shuffle1_dyn` primitive on 16 byte lanes with the `pshufb` behaviour
the source relies on (packed_simd lowers `u8x16::shuffle1_dyn` to `pshufb` /
`tbl`): a lane whose index byte has bit 7 set yields zero, otherwise the low
four bits of the index select the source lane. -/
def shuffle1_dyn (v : Fin 16 → Nat) (idx : Fin 16 → Nat) (s : Fin 16) : Nat :=
  if Nat.testBit (idx s) 7 then 0
  else v ⟨idx s % 16, Nat.mod_lt _ (by omega)⟩

/-- `matches0` (src/lib.rs lines 43-44): a lane takes `edge_matches` iff its
nodes byte equals `0b1000_0000` exactly (`self.nodes.eq(splat(root_byte))`). -/
def matches0 (pn pe : Fin 16 → Nat) (q : Fin 8 → Nat) (s : Fin 16) : Nat :=
  if pn s = 128 then edge_matches pe q s else 0

/-- One propagation step (src/lib.rs lines 45-51):
`(m.shuffle1_dyn(nodes) << 1) & edge_matches`, with the `u8` shift wrapping
modulo 256. -/
def stepMatch (pn pe : Fin 16 → Nat) (q : Fin 8 → Nat) (m : Fin 16 → Nat) (s : Fin 16) : Nat :=
  (shuffle1_dyn m pn s * 2 % 256) &&& edge_matches pe q s

/-- `matchesAt d` is the source's `matches{d}` vector, `d = 0..7`. -/
def matchesAt (pn pe : Fin 16 → Nat) (q : Fin 8 → Nat) : Nat → Fin 16 → Nat
  | 0 => matches0 pn pe q
  | d + 1 => stepMatch pn pe q (matchesAt pn pe q d)

/-- `.ne(zero).bitmask()` on a 16-lane vector: bit `s` of the `u16` result is
set iff lane `s` is non-zero. -/
def bitmask (v : Fin 16 → Nat) : Nat :=
  (List.finRange 16).foldl (fun a s => a ||| (if v s ≠ 0 then 1 <<< (s : Nat) else 0)) 0

/-- `state & splat(1 << (query_len - 1))` followed by `.ne(zero).bitmask()`
(src/lib.rs lines 64-65), for the state selected by `query_len`. -/
def matchMask (pn pe : Fin 16 → Nat) (q : Fin 8 → Nat) (query_len : Nat) : Nat :=
  bitmask (fun s => matchesAt pn pe q (query_len - 1) s &&& (1 <<< (query_len - 1)))

/-- `(self.nodes & splat(1 << 6)).ne(zero).bitmask()` (src/lib.rs line 67). -/
def valuesMask (pn : Fin 16 → Nat) : Nat :=
  bitmask (fun s => pn s &&& (1 <<< 6))

/-- `(self.nodes & splat(1 << 5)).ne(zero).bitmask()` (src/lib.rs line 68). -/
def branchesMask (pn : Fin 16 → Nat) : Nat :=
  bitmask (fun s => pn s &&& (1 <<< 5))

/-- `u16::trailing_zeros` for values below `2 ^ 16`: the least set bit index,
or 16 when the value is zero. -/
def trailingZeros16 (x : Nat) : Nat :=
  ((List.range 16).find? (fun i => Nat.testBit x i)).getD 16

/-- `u16::count_ones` for values below `2 ^ 16`. -/
def countOnes16 (x : Nat) : Nat :=
  ((List.range 16).filter (fun i => Nat.testBit x i)).length

/-- The classification tail of `traverse` (src/lib.rs lines 67-85): branch
match first, then value match, else `None`; the rank is the popcount of the
flag mask below the lowest matching slot. -/
def classify (pn : Fin 16 → Nat) (match_mask : Nat) : Lookup :=
  let values := valuesMask pn
  let branches := branchesMask pn
  let value_match := match_mask &&& values
  let branch_match := match_mask &&& branches
  let branch_pos := trailingZeros16 branch_match
  if branch_pos ≠ 16 then
    Lookup.branch (countOnes16 (branches &&& ((1 <<< branch_pos) - 1)))
  else
    let value_pos := trailingZeros16 value_match
    if value_pos ≠ 16 then
      Lookup.value (countOnes16 (values &&& ((1 <<< value_pos) - 1)))
    else Lookup.none

/-- `ByteTrie16::traverse` (src/lib.rs lines 24-86).  The `match query_len`
selects one of the eight state vectors; any other length is the
`panic!("Invalid query len")`, modelled as the error outcome. -/
def traverse (pn pe : Fin 16 → Nat) (q : Fin 8 → Nat) (query_len : Nat) : Except String Lookup :=
  match query_len with
  | 1 => .ok (classify pn (matchMask pn pe q 1))
  | 2 => .ok (classify pn (matchMask pn pe q 2))
  | 3 => .ok (classify pn (matchMask pn pe q 3))
  | 4 => .ok (classify pn (matchMask pn pe q 4))
  | 5 => .ok (classify pn (matchMask pn pe q 5))
  | 6 => .ok (classify pn (matchMask pn pe q 6))
  | 7 => .ok (classify pn (matchMask pn pe q 7))
  | 8 => .ok (classify pn (matchMask pn pe q 8))
  | _ => .error "Invalid query len"

/-- The walking loop of the naive reference `TestTree::traverse`
(src/tests.rs lines 60-73): follow the child with the matching label byte by
byte; `none` is the early `return Lookup::None`. -/
def testWalk (l : List Edge) : Option Nat → List Nat → Option (Option Nat)
  | cur, [] => some cur
  | cur, b :: rest =>
    match (children l cur).find? (fun e => decide (e.label = b)) with
    | some e => testWalk l (some e.number) rest
    | Option.none => Option.none

/-- The naive reference `TestTree::traverse` (src/tests.rs lines 60-84): walk
the tree, then classify the final edge, ranking by input `number` order.  The
source's `unwrap()` of the final edge cannot fail for a non-empty query; the
unreachable fallbacks return `Lookup.none`. -/
def testTraverse (l : List Edge) (query : List Nat) : Lookup :=
  match testWalk l Option.none query with
  | Option.none => Lookup.none
  | some Option.none => Lookup.none
  | some (some n) =>
    match l.find? (fun e => decide (e.number = n)) with
    | Option.none => Lookup.none
    | some e =>
      if e.has_branch then
        Lookup.branch (l.filter (fun x => x.has_branch && decide (x.number < n))).length
      else if e.has_value then
        Lookup.value (l.filter (fun x => x.has_value && decide (x.number < n))).length
      else Lookup.none

/-- A fixed-width query buffer from a list of bytes (positions past the list
are zero). -/
def mkq (xs : List Nat) : Fin 8 → Nat := fun i => xs.getD i 0

/-- The rank of the flagged edges whose input `number` precedes `n` — the rank
used by the naive reference. -/
def numberRank (l : List Edge) (flag : Edge → Bool) (n : Nat) : Nat :=
  (l.filter (fun e => flag e && decide (e.number < n))).length

/-- The rank of the flagged edges whose DFS slot (under the build's assignment
map) is strictly below `s` — the rank `traverse` returns. -/
def slotRank (l : List Edge) (dfs : List (Nat × Nat)) (flag : Edge → Bool) (s : Nat) : Nat :=
  (l.filter (fun e => flag e &&
    match dfs.lookup e.number with
    | some t => decide (t < s)
    | Option.none => false)).length

/-- A single value-bearing root edge: `(root, label 1, number 0, has_value)`. -/
def l1 : List Edge := [⟨Option.none, 1, 0, true, false⟩]

/-- Scenario G of the spec: a single branch-bearing root edge
`(root, label 10, number 0, has_branch)`. -/
def lG : List Edge := [⟨Option.none, 10, 0, false, true⟩]

/-- Three edges: two root edges with labels 1 and 2 (the second value-bearing)
and a value-bearing child of the first.  DFS visits the child (slot 1) before
the second root edge (slot 2), while the input numbers order them the other
way around. -/
def lX : List Edge :=
  [⟨Option.none, 1, 0, false, false⟩,
   ⟨Option.none, 2, 1, true, false⟩,
   ⟨some 0, 3, 2, true, false⟩]

/-- A single edge whose parent number 5 does not occur in the set. -/
def lMissing : List Edge := [⟨some 5, 1, 0, false, false⟩]

/-- Two edges whose parent references form a cycle (and no root edge). -/
def lCycle : List Edge :=
  [⟨some 0, 2, 1, false, false⟩, ⟨some 1, 1, 0, false, false⟩]

/-- Two root edges sharing the label 7. -/
def lDupSib : List Edge :=
  [⟨Option.none, 7, 0, false, false⟩, ⟨Option.none, 7, 1, false, false⟩]

/-- A maximal tree: a root-to-leaf chain of 8 edges labelled 1..8 (numbers
0..7, the first and last value-bearing) plus 8 further root edges labelled
100..107 (numbers 8..15) — 16 edges, depth exactly 8, all §3.1 invariants
satisfied. -/
def lMax : List Edge :=
  [⟨Option.none, 1, 0, true, false⟩] ++
  ((List.range 8).map (fun j => (⟨Option.none, 100 + j, 8 + j, false, false⟩ : Edge))) ++
  ((List.range 7).map (fun j => (⟨some j, j + 2, j + 1, j = 6, false⟩ : Edge)))

/-- Seventeen root edges — cardinality 17 > 16. -/
def lTooMany : List Edge :=
  (List.range 17).map (fun j => (⟨Option.none, j, j, false, false⟩ : Edge))

/-- A chain of 9 edges — its last edge lies at depth 9 > 8. -/
def lDeep9 : List Edge :=
  (List.range 9).map (fun j =>
    (⟨if j = 0 then Option.none else some (j - 1), j, j, false, false⟩ : Edge))

/-! ### Bit-level infrastructure for the traversal vectors -/

theorem testBit_foldl_or {α : Type} (g : α → Nat) (L : List α) (acc : Nat) (i : Nat) :
    Nat.testBit (L.foldl (fun a x => a ||| g x) acc) i
      = (Nat.testBit acc i || L.any (fun x => Nat.testBit (g x) i)) := by
  induction L generalizing acc with
  | nil => simp
  | cons x xs ih =>
    simp only [List.foldl_cons, List.any_cons, ih, Nat.testBit_lor, Bool.or_assoc]

theorem testBit_one_shiftLeft (i b : Nat) :
    Nat.testBit (1 <<< i) b = decide (i = b) := by
  rw [Nat.shiftLeft_eq, one_mul, Nat.testBit_two_pow]

theorem testBit_ite_shift (c : Prop) [Decidable c] (i b : Nat) :
    Nat.testBit (if c then 1 <<< i else 0) b = (decide c && decide (i = b)) := by
  by_cases h : c
  · rw [if_pos h, testBit_one_shiftLeft]
    simp [h]
  · rw [if_neg h]
    simp [h]

theorem land_one_shiftLeft_ne_zero (x k : Nat) :
    x &&& (1 <<< k) ≠ 0 ↔ Nat.testBit x k = true := by
  rw [Nat.shiftLeft_eq, one_mul, Nat.and_two_pow]
  cases h : Nat.testBit x k <;> simp [(Nat.two_pow_pos k).ne']

theorem edge_matches_testBit (pe : Fin 16 → Nat) (q : Fin 8 → Nat) (s : Fin 16) (b : Nat) :
    Nat.testBit (edge_matches pe q s) b
      = (List.finRange 8).any (fun i => decide (pe s = q i) && decide ((i : Nat) = b)) := by
  unfold edge_matches
  rw [testBit_foldl_or]
  simp only [Nat.zero_testBit, Bool.false_or]
  congr 1
  funext i
  exact testBit_ite_shift _ _ _

theorem edge_matches_testBit_lt (pe : Fin 16 → Nat) (q : Fin 8 → Nat) (s : Fin 16)
    {b : Nat} (hb : b < 8) :
    Nat.testBit (edge_matches pe q s) b = decide (pe s = q ⟨b, hb⟩) := by
  rw [edge_matches_testBit]
  by_cases h : pe s = q ⟨b, hb⟩
  · have ha : (List.finRange 8).any
        (fun i => decide (pe s = q i) && decide ((i : Nat) = b)) = true := by
      rw [List.any_eq_true]
      exact ⟨⟨b, hb⟩, List.mem_finRange _, by simp [h]⟩
    rw [ha]
    simp [h]
  · have ha : (List.finRange 8).any
        (fun i => decide (pe s = q i) && decide ((i : Nat) = b)) = false := by
      rw [List.any_eq_false]
      intro i hi
      by_cases hib : (i : Nat) = b
      · have hi' : i = ⟨b, hb⟩ := Fin.ext hib
        subst hi'
        simp [h]
      · simp [hib]
    rw [ha]
    simp [h]

theorem edge_matches_testBit_ge (pe : Fin 16 → Nat) (q : Fin 8 → Nat) (s : Fin 16)
    {b : Nat} (hb : 8 ≤ b) :
    Nat.testBit (edge_matches pe q s) b = false := by
  rw [edge_matches_testBit]
  rw [List.any_eq_false]
  intro i hi
  have : (i : Nat) ≠ b := by omega
  simp [this]

theorem bitmask_testBit (v : Fin 16 → Nat) {b : Nat} (hb : b < 16) :
    Nat.testBit (bitmask v) b = decide (v ⟨b, hb⟩ ≠ 0) := by
  unfold bitmask
  rw [testBit_foldl_or]
  simp only [Nat.zero_testBit, Bool.false_or]
  by_cases h : v ⟨b, hb⟩ ≠ 0
  · have ha : (List.finRange 16).any
        (fun s => Nat.testBit (if v s ≠ 0 then 1 <<< (s : Nat) else 0) b) = true := by
      rw [List.any_eq_true]
      refine ⟨⟨b, hb⟩, List.mem_finRange _, ?_⟩
      rw [testBit_ite_shift]
      simp [h]
    rw [ha]
    simp [h]
  · have ha : (List.finRange 16).any
        (fun s => Nat.testBit (if v s ≠ 0 then 1 <<< (s : Nat) else 0) b) = false := by
      rw [List.any_eq_false]
      intro s hs
      rw [testBit_ite_shift]
      by_cases hsb : (s : Nat) = b
      · have hs' : s = ⟨b, hb⟩ := Fin.ext hsb
        subst hs'
        simp [h]
      · simp [hsb]
    rw [ha]
    simp [h]

theorem bitmask_testBit_ge (v : Fin 16 → Nat) {b : Nat} (hb : 16 ≤ b) :
    Nat.testBit (bitmask v) b = false := by
  unfold bitmask
  rw [testBit_foldl_or]
  simp only [Nat.zero_testBit, Bool.false_or]
  rw [List.any_eq_false]
  intro s hs
  rw [testBit_ite_shift]
  have : (s : Nat) ≠ b := by omega
  simp [this]

theorem bitmask_zero (v : Fin 16 → Nat) (h : ∀ s, v s = 0) : bitmask v = 0 := by
  apply Nat.eq_of_testBit_eq
  intro i
  rw [Nat.zero_testBit]
  by_cases hi : i < 16
  · rw [bitmask_testBit v hi]
    simp [h]
  · exact bitmask_testBit_ge v (by omega)

/-- `traverse` with a valid length is the classification of the selected
match mask. -/
theorem traverse_eq_classify (pn pe : Fin 16 → Nat) (q : Fin 8 → Nat) (len : Nat)
    (h1 : 1 ≤ len) (h8 : len ≤ 8) :
    traverse pn pe q len = .ok (classify pn (matchMask pn pe q len)) := by
  interval_cases len <;> rfl

/-- A lane whose nodes byte is the unused-slot sentinel `0b1001_1111` carries
a zero match bitset at every depth: it fails the `== 0x80` root test, and its
index byte has bit 7 set, so the shuffle zeroes it at every later step. -/
theorem sentinel_lane_zero (pn pe : Fin 16 → Nat) (q : Fin 8 → Nat) {s : Fin 16}
    (h : pn s = 159) : ∀ d, matchesAt pn pe q d s = 0 := by
  intro d
  induction d with
  | zero =>
    have hne : pn s ≠ 128 := by rw [h]; decide
    simp [matchesAt, matches0, hne]
  | succ d ih =>
    have h7 : Nat.testBit (pn s) 7 = true := by rw [h]; decide
    simp [matchesAt, stepMatch, shuffle1_dyn, h7, Nat.zero_and]

theorem classify_zero (pn : Fin 16 → Nat) : classify pn 0 = Lookup.none := by
  unfold classify
  simp only [Nat.zero_and]
  have hz : trailingZeros16 0 = 16 := rfl
  simp [hz]

/-- A trie whose nodes bytes are all the sentinel never matches anything. -/
theorem traverse_sentinel (pn pe : Fin 16 → Nat) (q : Fin 8 → Nat) (len : Nat)
    (hpn : ∀ s, pn s = 159) (h1 : 1 ≤ len) (h8 : len ≤ 8) :
    traverse pn pe q len = .ok Lookup.none := by
  have hmm : matchMask pn pe q len = 0 := by
    unfold matchMask
    apply bitmask_zero
    intro s
    rw [sentinel_lane_zero pn pe q (hpn s) _, Nat.zero_and]
  rw [traverse_eq_classify pn pe q len h1 h8, hmm, classify_zero]

theorem testBit_shl1_mod (x b : Nat) :
    Nat.testBit (x * 2 % 256) b
      = (decide (b < 8) && (decide (b ≥ 1) && Nat.testBit x (b - 1))) := by
  have h256 : (256 : Nat) = 2 ^ 8 := rfl
  have hx : x * 2 = x <<< 1 := (Nat.shiftLeft_eq x 1).symm
  rw [h256, Nat.testBit_mod_two_pow, hx, Nat.testBit_shiftLeft]

/-- Bit `b` of a match vector depends only on query bytes at positions `≤ b`:
two queries agreeing below `L` give match vectors agreeing on all bits
below `L`, at every depth and in every lane. -/
theorem matchesAt_congr (pn pe : Fin 16 → Nat) (q1 q2 : Fin 8 → Nat) (L : Nat)
    (hq : ∀ i : Fin 8, (i : Nat) < L → q1 i = q2 i) :
    ∀ d (s : Fin 16) (b : Nat), b < L → b < 8 →
      Nat.testBit (matchesAt pn pe q1 d s) b = Nat.testBit (matchesAt pn pe q2 d s) b := by
  intro d
  induction d with
  | zero =>
    intro s b hbL hb8
    simp only [matchesAt, matches0]
    by_cases h : pn s = 128
    · rw [if_pos h, if_pos h, edge_matches_testBit_lt pe q1 s hb8,
        edge_matches_testBit_lt pe q2 s hb8, hq ⟨b, hb8⟩ hbL]
    · rw [if_neg h, if_neg h]
  | succ d ih =>
    intro s b hbL hb8
    simp only [matchesAt, stepMatch]
    rw [Nat.testBit_land, Nat.testBit_land,
      edge_matches_testBit_lt pe q1 s hb8, edge_matches_testBit_lt pe q2 s hb8,
      hq ⟨b, hb8⟩ hbL, testBit_shl1_mod, testBit_shl1_mod]
    have hsh : Nat.testBit (shuffle1_dyn (matchesAt pn pe q1 d) pn s) (b - 1)
        = Nat.testBit (shuffle1_dyn (matchesAt pn pe q2 d) pn s) (b - 1) := by
      unfold shuffle1_dyn
      by_cases h7 : Nat.testBit (pn s) 7
      · rw [if_pos h7, if_pos h7]
      · rw [if_neg h7, if_neg h7]
        exact ih _ (b - 1) (by omega) (by omega)
    rw [hsh]

theorem matchMask_congr (pn pe : Fin 16 → Nat) (q1 q2 : Fin 8 → Nat) (len : Nat)
    (h1 : 1 ≤ len) (h8 : len ≤ 8)
    (hq : ∀ i : Fin 8, (i : Nat) < len → q1 i = q2 i) :
    matchMask pn pe q1 len = matchMask pn pe q2 len := by
  unfold matchMask
  apply Nat.eq_of_testBit_eq
  intro b
  by_cases hb : b < 16
  · rw [bitmask_testBit _ hb, bitmask_testBit _ hb]
    have hlane : (matchesAt pn pe q1 (len - 1) ⟨b, hb⟩ &&& (1 <<< (len - 1)) ≠ 0)
        ↔ (matchesAt pn pe q2 (len - 1) ⟨b, hb⟩ &&& (1 <<< (len - 1)) ≠ 0) := by
      rw [land_one_shiftLeft_ne_zero, land_one_shiftLeft_ne_zero,
        matchesAt_congr pn pe q1 q2 len hq (len - 1) ⟨b, hb⟩ (len - 1)
          (by omega) (by omega)]
    exact decide_eq_decide.2 hlane
  · rw [bitmask_testBit_ge _ (by omega), bitmask_testBit_ge _ (by omega)]

/-- Claim C6: for every trie and every `query_len` in `1..=8`, two query
buffers agreeing on bytes `0..query_len` produce the same `traverse` result;
bytes at positions `≥ query_len` never affect the outcome. -/
theorem c6_bytes_beyond_len_ignored (pn pe : Fin 16 → Nat) (q1 q2 : Fin 8 → Nat)
    (len : Nat) (h1 : 1 ≤ len) (h8 : len ≤ 8)
    (hq : ∀ i : Fin 8, (i : Nat) < len → q1 i = q2 i) :
    traverse pn pe q1 len = traverse pn pe q2 len := by
  rw [traverse_eq_classify _ _ _ _ h1 h8, traverse_eq_classify _ _ _ _ h1 h8,
    matchMask_congr pn pe q1 q2 len h1 h8 hq]

/-- Witness for C6: two buffers differing only past position 0, length 1. -/
theorem c6_bytes_beyond_len_ignored_witness :
    traverse (fun _ => 0) (fun _ => 0) (mkq [1]) 1
      = traverse (fun _ => 0) (fun _ => 0) (fun i => if (i : Nat) = 0 then 1 else 7) 1 :=
  c6_bytes_beyond_len_ignored _ _ _ _ 1 (by decide) (by decide) (by decide)

/-- Claim C5: `traverse` returns normally exactly when `query_len` lies in
`1..=8`; every other length is the `panic!("Invalid query len")`, and a valid
length always produces a `Lookup` value. -/
theorem c5_query_len_validation (pn pe : Fin 16 → Nat) (q : Fin 8 → Nat) (query_len : Nat) :
    (∃ r, traverse pn pe q query_len = .ok r) ↔ 1 ≤ query_len ∧ query_len ≤ 8 := by
  match query_len with
  | 0 =>
    constructor
    · rintro ⟨r, hr⟩
      have h0 : traverse pn pe q 0 = .error "Invalid query len" := rfl
      rw [h0] at hr
      cases hr
    · rintro ⟨h1, _⟩
      omega
  | 1 | 2 | 3 | 4 | 5 | 6 | 7 | 8 =>
    exact ⟨fun _ => by omega, fun _ => ⟨_, rfl⟩⟩
  | n + 9 =>
    constructor
    · rintro ⟨r, hr⟩
      have h0 : traverse pn pe q (n + 9) = .error "Invalid query len" := rfl
      rw [h0] at hr
      cases hr
    · rintro ⟨_, h8⟩
      omega

/-- Claim C10: building from the empty edge set succeeds, and the resulting
trie (all slots sentinel-encoded) answers `None` for every query buffer and
every valid length. -/
theorem c10_empty_trie :
    build_tree ([] : List Edge) 8 = .ok (stOf (build_tree [] 8)) ∧
    ∀ (q : Fin 8 → Nat) (len : Nat), 1 ≤ len → len ≤ 8 →
      traverse (stOf (build_tree ([] : List Edge) 8)).packed_nodes
        (stOf (build_tree ([] : List Edge) 8)).packed_edges q len = .ok Lookup.none := by
  refine ⟨rfl, fun q len h1 h8 => ?_⟩
  exact traverse_sentinel _ _ q len (fun s => rfl) h1 h8

/-- Witness for C10 at the all-zero query of length 1. -/
theorem c10_empty_trie_witness :
    traverse (stOf (build_tree ([] : List Edge) 8)).packed_nodes
      (stOf (build_tree ([] : List Edge) 8)).packed_edges (mkq []) 1 = .ok Lookup.none :=
  c10_empty_trie.2 (mkq []) 1 (by decide) (by decide)

/-! ### Association-list, lane-write and flag-byte lemmas -/

theorem lookup_cons_self (k v : Nat) (m : List (Nat × Nat)) :
    List.lookup k ((k, v) :: m) = some v := by
  simp only [List.lookup, beq_self_eq_true]

theorem lookup_cons_ne (k a v : Nat) (m : List (Nat × Nat)) (h : k ≠ a) :
    List.lookup k ((a, v) :: m) = List.lookup k m := by
  simp only [List.lookup]
  have hb : (k == a) = false := by simpa using h
  rw [hb]

theorem lookup_none_not_mem_keys {k : Nat} {m : List (Nat × Nat)}
    (h : List.lookup k m = Option.none) : k ∉ m.map Prod.fst := by
  induction m with
  | nil => simp
  | cons p rest ih =>
    rcases p with ⟨a, v⟩
    by_cases hk : k = a
    · subst hk
      rw [lookup_cons_self] at h
      cases h
    · rw [lookup_cons_ne _ _ _ _ hk] at h
      simp only [List.map_cons, List.mem_cons]
      push_neg
      exact ⟨hk, ih h⟩

theorem writeLane_self (v : Fin 16 → Nat) (i : Fin 16) (x : Nat) :
    writeLane v i x i = x := by
  simp [writeLane]

theorem writeLane_ne (v : Fin 16 → Nat) (i j : Fin 16) (x : Nat) (h : j ≠ i) :
    writeLane v i x j = v j := by
  simp [writeLane, h]

theorem lor_mod16 (x y : Nat) : (x ||| y) % 16 = (x % 16) ||| (y % 16) := by
  apply Nat.eq_of_testBit_eq
  intro i
  have h16 : (16 : Nat) = 2 ^ 4 := rfl
  rw [h16, Nat.testBit_mod_two_pow, Nat.testBit_lor, Nat.testBit_lor,
    Nat.testBit_mod_two_pow, Nat.testBit_mod_two_pow, Bool.and_or_distrib_left]

theorem flagBits_testBit7_lt (e : Edge) {d : Nat} (hd : d < 16) :
    Nat.testBit (flagBits e d) 7 = false := by
  have hdb : Nat.testBit d 7 = false := Nat.testBit_lt_two_pow (by omega)
  have h64 : Nat.testBit 64 7 = false := by decide
  have h32 : Nat.testBit 32 7 = false := by decide
  rcases e with ⟨p, lbl, num, hv, hb⟩
  cases hv <;> cases hb <;> simp [flagBits, Nat.testBit_lor, hdb, h64, h32]

theorem flagBits_testBit7_root (e : Edge) :
    Nat.testBit (flagBits e 128) 7 = true := by
  rcases e with ⟨p, lbl, num, hv, hb⟩
  cases hv <;> cases hb <;> simp [flagBits] <;> decide

theorem flagBits_mod16 (e : Edge) {d : Nat} (hd : d < 16) :
    flagBits e d % 16 = d := by
  have hd16 : d % 16 = d := Nat.mod_eq_of_lt hd
  rcases e with ⟨p, lbl, num, hv, hb⟩
  cases hv <;> cases hb <;> simp [flagBits, lor_mod16, hd16]

/-! ### Characterising one successful step of the DFS loop -/

theorem buildStep_ok (l : List Edge) (md : Nat) (frame : Option Edge × Nat)
    (rest : List (Option Edge × Nat)) (st st1 : BuildState)
    (h : buildStep l md frame rest st = .ok st1) :
    frame.2 ≤ md ∧
    ((frame.1 = Option.none ∧
        st1 = { st with stack := frameList l Option.none (frame.2 + 1) ++ rest }) ∨
      (∃ (edge : Edge) (pb : Nat) (h16 : st.next_dfs < 16),
        frame.1 = some edge ∧
        st.dfs.lookup edge.number = Option.none ∧
        parentByte ((edge.number, st.next_dfs) :: st.dfs) edge = .ok pb ∧
        st1 = { packed_edges := writeLane st.packed_edges ⟨st.next_dfs, h16⟩ edge.label
                packed_nodes := writeLane st.packed_nodes ⟨st.next_dfs, h16⟩ pb
                next_dfs := st.next_dfs + 1
                dfs := (edge.number, st.next_dfs) :: st.dfs
                stack := frameList l (some edge.number) (frame.2 + 1) ++ rest })) := by
  unfold buildStep at h
  split at h
  · cases h
  · next hdepth =>
    refine ⟨by omega, ?_⟩
    split at h
    · next hfr =>
      cases h
      exact Or.inl ⟨hfr, rfl⟩
    · next edge hfr =>
      split at h
      · cases h
      · next hlk =>
        split at h
        · cases h
        · next pb hpb =>
          split at h
          · next h16 =>
            cases h
            exact Or.inr ⟨edge, pb, h16, hfr, hlk, hpb, rfl⟩
          · cases h

/-- Invariant transport along a successful run of the DFS loop. -/
theorem buildLoop_ok_invariant (l : List Edge) (md : Nat) (P : BuildState → Prop)
    (hstep : ∀ frame rest st st1, st.stack = frame :: rest →
      buildStep l md frame rest st = .ok st1 → P st → P st1) :
    ∀ fuel st st', buildLoop l md fuel st = .ok st' → P st → P st' := by
  intro fuel
  induction fuel with
  | zero =>
    intro st st' h
    cases h
  | succ fuel ih =>
    intro st st' h hP
    unfold buildLoop at h
    split at h
    · next hs =>
      cases h
      exact hP
    · next frame rest hs =>
      split at h
      · next st1 hbs =>
        exact ih st1 st' h (hstep frame rest st st1 hs hbs hP)
      · next e hbs =>
        cases h

theorem mem_frameList {l : List Edge} {key : Option Nat} {d0 : Nat} {e : Edge} {d : Nat}
    (h : (some e, d) ∈ frameList l key d0) : e ∈ l ∧ e.parent = key ∧ d = d0 := by
  unfold frameList at h
  rw [List.mem_map] at h
  obtain ⟨a, ha, heq⟩ := h
  have h1 : some a = some e := congrArg Prod.fst heq
  have h2 : d0 = d := congrArg Prod.snd heq
  injection h1 with h1
  subst h1
  have hm := List.mem_filter.1 ha
  exact ⟨hm.1, of_decide_eq_true hm.2, h2.symm⟩

theorem parentByte_ok (dfs2 : List (Nat × Nat)) (edge : Edge) (pb : Nat)
    (h : parentByte dfs2 edge = .ok pb) :
    (edge.parent = Option.none ∧ pb = flagBits edge 128) ∨
    (∃ ix dIx, edge.parent = some ix ∧ dfs2.lookup ix = some dIx ∧ dIx < 32 ∧
      pb = flagBits edge dIx) := by
  unfold parentByte at h
  split at h
  · next ix hpe =>
    split at h
    · next dIx hlk =>
      split at h
      · next h32 =>
        cases h
        exact Or.inr ⟨ix, dIx, hpe, hlk, h32, rfl⟩
      · cases h
    · cases h
  · next hpe =>
    cases h
    exact Or.inl ⟨hpe, rfl⟩

/-- Claim C9: after a successful build, every slot holding a non-root edge
(bit 7 of its nodes byte clear — root edges and unused sentinel slots have it
set) stores in its low four bits a parent slot index strictly below its own
slot: DFS pre-order assigns parents before children. -/
theorem c9_parent_slot_lt_child_slot (l : List Edge) (st : BuildState)
    (hb : build_tree l 8 = .ok st) :
    ∀ s : Fin 16, Nat.testBit (st.packed_nodes s) 7 = false →
      st.packed_nodes s % 16 < (s : Nat) := by
  have hstep : ∀ frame rest st0 st1, st0.stack = frame :: rest →
      buildStep l 8 frame rest st0 = .ok st1 →
      ((∀ n v, st0.dfs.lookup n = some v → v < st0.next_dfs) ∧
        (∀ e d p, (some e, d) ∈ st0.stack → e.parent = some p →
          st0.dfs.lookup p ≠ Option.none) ∧
        (∀ s : Fin 16, Nat.testBit (st0.packed_nodes s) 7 = false →
          st0.packed_nodes s % 16 < (s : Nat))) →
      ((∀ n v, st1.dfs.lookup n = some v → v < st1.next_dfs) ∧
        (∀ e d p, (some e, d) ∈ st1.stack → e.parent = some p →
          st1.dfs.lookup p ≠ Option.none) ∧
        (∀ s : Fin 16, Nat.testBit (st1.packed_nodes s) 7 = false →
          st1.packed_nodes s % 16 < (s : Nat))) := by
    intro frame rest st0 st1 hs hbs hP
    obtain ⟨hQ1, hQ2, hQ3⟩ := hP
    obtain ⟨hdep, hcase⟩ := buildStep_ok l 8 frame rest st0 st1 hbs
    rcases hcase with ⟨hfr, rfl⟩ | ⟨edge, pb, h16, hfr, hlk, hpb, rfl⟩
    · refine ⟨hQ1, ?_, hQ3⟩
      intro e d p hmem hpar
      rcases List.mem_append.1 hmem with hm | hm
      · obtain ⟨-, hpe, -⟩ := mem_frameList hm
        rw [hpar] at hpe
        cases hpe
      · exact hQ2 e d p (hs ▸ List.mem_cons_of_mem _ hm) hpar
    · refine ⟨?_, ?_, ?_⟩
      · intro n v hl
        by_cases hn : n = edge.number
        · subst hn
          rw [show ({ packed_edges := writeLane st0.packed_edges ⟨st0.next_dfs, h16⟩ edge.label
                      packed_nodes := writeLane st0.packed_nodes ⟨st0.next_dfs, h16⟩ pb
                      next_dfs := st0.next_dfs + 1
                      dfs := (edge.number, st0.next_dfs) :: st0.dfs
                      stack := frameList l (some edge.number) (frame.2 + 1) ++ rest
                      : BuildState }).dfs = (edge.number, st0.next_dfs) :: st0.dfs from rfl,
            lookup_cons_self] at hl
          injection hl with hl
          show v < st0.next_dfs + 1
          omega
        · rw [show ({ packed_edges := writeLane st0.packed_edges ⟨st0.next_dfs, h16⟩ edge.label
                      packed_nodes := writeLane st0.packed_nodes ⟨st0.next_dfs, h16⟩ pb
                      next_dfs := st0.next_dfs + 1
                      dfs := (edge.number, st0.next_dfs) :: st0.dfs
                      stack := frameList l (some edge.number) (frame.2 + 1) ++ rest
                      : BuildState }).dfs = (edge.number, st0.next_dfs) :: st0.dfs from rfl,
            lookup_cons_ne _ _ _ _ hn] at hl
          have := hQ1 n v hl
          show v < st0.next_dfs + 1
          omega
      · intro e d p hmem hpar
        show List.lookup p ((edge.number, st0.next_dfs) :: st0.dfs) ≠ Option.none
        by_cases hp : p = edge.number
        · subst hp
          rw [lookup_cons_self]
          simp
        · rw [lookup_cons_ne _ _ _ _ hp]
          rcases List.mem_append.1 hmem with hm | hm
          · obtain ⟨-, hpe, -⟩ := mem_frameList hm
            rw [hpar] at hpe
            injection hpe with hpe
            exact absurd hpe hp
          · exact hQ2 e d p (hs ▸ List.mem_cons_of_mem _ hm) hpar
      · intro s hbit
        show writeLane st0.packed_nodes ⟨st0.next_dfs, h16⟩ pb s % 16 < (s : Nat)
        have hbit' : Nat.testBit (writeLane st0.packed_nodes ⟨st0.next_dfs, h16⟩ pb s) 7
            = false := hbit
        by_cases hsi : s = ⟨st0.next_dfs, h16⟩
        · subst hsi
          rw [writeLane_self] at hbit' ⊢
          rcases parentByte_ok _ _ _ hpb with ⟨hpe, rfl⟩ | ⟨ix, dIx, hpe, hlk2, h32, rfl⟩
          · rw [flagBits_testBit7_root] at hbit'
            cases hbit'
          · have hixne : ix ≠ edge.number := by
              intro he
              subst he
              have hfm : (some edge, frame.2) ∈ st0.stack := by
                rw [hs, ← hfr]
                exact List.mem_cons_self _ _
              exact (hQ2 edge frame.2 edge.number hfm hpe) hlk
            rw [lookup_cons_ne _ _ _ _ hixne] at hlk2
            have hdix := hQ1 ix dIx hlk2
            rw [flagBits_mod16 edge (by omega)]
            show dIx < st0.next_dfs
            omega
        · rw [writeLane_ne _ _ _ _ hsi] at hbit' ⊢
          exact hQ3 s hbit'
  have hinit : (∀ n v, List.lookup n ([] : List (Nat × Nat)) = some v → v < 0) ∧
      (∀ e d p, ((some e, d) : Option Edge × Nat) ∈ [((Option.none : Option Edge), 0)] →
        e.parent = some p → List.lookup p ([] : List (Nat × Nat)) ≠ Option.none) ∧
      (∀ s : Fin 16, Nat.testBit ((fun _ => 159 : Fin 16 → Nat) s) 7 = false →
        (fun _ => 159 : Fin 16 → Nat) s % 16 < (s : Nat)) := by
    refine ⟨?_, ?_, ?_⟩
    · intro n v h
      simp [List.lookup] at h
    · intro e d p hm hp
      simp at hm
    · intro s hbit
      have hbit2 : Nat.testBit 159 7 = false := hbit
      exact absurd hbit2 (by decide)
  unfold build_tree at hb
  exact (buildLoop_ok_invariant l 8
    (fun st0 =>
      (∀ n v, st0.dfs.lookup n = some v → v < st0.next_dfs) ∧
      (∀ e d p, (some e, d) ∈ st0.stack → e.parent = some p →
        st0.dfs.lookup p ≠ Option.none) ∧
      (∀ s : Fin 16, Nat.testBit (st0.packed_nodes s) 7 = false →
        st0.packed_nodes s % 16 < (s : Nat)))
    hstep (buildFuel l) _ st hb hinit).2.2

/-- Witness for C9 on the concrete build of `lX`: slot 1 holds a non-root
edge whose parent slot 0 is strictly smaller. -/
theorem c9_parent_slot_lt_child_slot_witness :
    Nat.testBit ((stOf (build_tree lX 8)).packed_nodes 1) 7 = false ∧
    (stOf (build_tree lX 8)).packed_nodes 1 % 16 < ((1 : Fin 16) : Nat) :=
  ⟨by decide, c9_parent_slot_lt_child_slot lX (stOf (build_tree lX 8)) rfl 1 (by decide)⟩

theorem buildLoop_next_le (l : List Edge) (md : Nat) :
    ∀ fuel st st', buildLoop l md fuel st = .ok st' → st.next_dfs ≤ st'.next_dfs := by
  intro fuel
  induction fuel with
  | zero =>
    intro st st' h
    cases h
  | succ fuel ih =>
    intro st st' h
    unfold buildLoop at h
    split at h
    · next hs =>
      cases h
      exact le_refl _
    · next frame rest hs =>
      split at h
      · next st1 hbs =>
        have h1 := ih st1 st' h
        obtain ⟨-, hcase⟩ := buildStep_ok l md frame rest st st1 hbs
        rcases hcase with ⟨-, rfl⟩ | ⟨e, pb, h16, -, -, -, rfl⟩
        · exact h1
        · have h2 : st.next_dfs + 1 ≤ st'.next_dfs := h1
          omega
      · next er hbs =>
        cases h

/-- DFS assignments persist: an inserted `number → slot` entry is still
visible in the final map (inserts never shadow, since a duplicate key would
have tripped the `insert` assertion). -/
theorem buildLoop_lookup_persist (l : List Edge) (md : Nat) :
    ∀ fuel st st', buildLoop l md fuel st = .ok st' →
      ∀ n v, st.dfs.lookup n = some v → st'.dfs.lookup n = some v := by
  intro fuel
  induction fuel with
  | zero =>
    intro st st' h
    cases h
  | succ fuel ih =>
    intro st st' h n v hn
    unfold buildLoop at h
    split at h
    · next hs =>
      cases h
      exact hn
    · next frame rest hs =>
      split at h
      · next st1 hbs =>
        apply ih st1 st' h n v
        obtain ⟨-, hcase⟩ := buildStep_ok l md frame rest st st1 hbs
        rcases hcase with ⟨-, rfl⟩ | ⟨e, pb, h16, -, hlk, -, rfl⟩
        · exact hn
        · show List.lookup n ((e.number, st.next_dfs) :: st.dfs) = some v
          have hne : n ≠ e.number := by
            intro he
            subst he
            rw [hn] at hlk
            cases hlk
          rw [lookup_cons_ne _ _ _ _ hne]
          exact hn
      · next er hbs =>
        cases h

/-- Every frame on the stack of a successfully completing run is eventually
visited: its edge's number receives a DFS slot no smaller than the current
`next_dfs`. -/
theorem buildLoop_stack_assigned (l : List Edge) (md : Nat) :
    ∀ fuel st st', buildLoop l md fuel st = .ok st' →
      ∀ e d, (some e, d) ∈ st.stack →
        ∃ s, st'.dfs.lookup e.number = some s ∧ st.next_dfs ≤ s := by
  intro fuel
  induction fuel with
  | zero =>
    intro st st' h
    cases h
  | succ fuel ih =>
    intro st st' h e d hm
    unfold buildLoop at h
    split at h
    · next hs =>
      rw [hs] at hm
      exact absurd hm (List.not_mem_nil _)
    · next frame rest hs =>
      split at h
      · next st1 hbs =>
        obtain ⟨-, hcase⟩ := buildStep_ok l md frame rest st st1 hbs
        rw [hs] at hm
        rcases List.mem_cons.1 hm with hm1 | hm1
        · rcases hcase with ⟨hfr, rfl⟩ | ⟨edge, pb, h16, hfr, hlk, hpb, rfl⟩
          · rw [← hm1] at hfr
            simp at hfr
          · rw [← hm1] at hfr
            have hfr2 : some e = some edge := hfr
            injection hfr2 with he
            subst he
            have hl1 : List.lookup e.number ((e.number, st.next_dfs) :: st.dfs)
                = some st.next_dfs := lookup_cons_self _ _ _
            exact ⟨st.next_dfs,
              buildLoop_lookup_persist l md fuel _ st' h e.number st.next_dfs hl1,
              le_refl _⟩
        · rcases hcase with ⟨hfr, rfl⟩ | ⟨edge, pb, h16, hfr, hlk, hpb, rfl⟩
          · exact ih _ st' h e d (List.mem_append.2 (Or.inr hm1))
          · obtain ⟨s2, hs2, hle⟩ := ih _ st' h e d (List.mem_append.2 (Or.inr hm1))
            have hle2 : st.next_dfs + 1 ≤ s2 := hle
            exact ⟨s2, hs2, by omega⟩
      · next er hbs =>
        cases h

/-- Stack discipline: two edge frames stacked in order receive DFS slots in
that order — the nearer-to-top frame gets the strictly smaller slot. -/
theorem buildLoop_stack_ordered (l : List Edge) (md : Nat) :
    ∀ fuel st st', buildLoop l md fuel st = .ok st' →
      ∀ e1 d1 e2 d2, [(some e1, d1), (some e2, d2)].Sublist st.stack →
        ∃ s1 s2, st'.dfs.lookup e1.number = some s1 ∧
          st'.dfs.lookup e2.number = some s2 ∧ s1 < s2 := by
  intro fuel
  induction fuel with
  | zero =>
    intro st st' h
    cases h
  | succ fuel ih =>
    intro st st' h e1 d1 e2 d2 hsub
    unfold buildLoop at h
    split at h
    · next hs =>
      rw [hs] at hsub
      cases hsub
    · next frame rest hs =>
      split at h
      · next st1 hbs =>
        obtain ⟨-, hcase⟩ := buildStep_ok l md frame rest st st1 hbs
        rw [hs] at hsub
        cases hsub with
        | cons _ hsub2 =>
          rcases hcase with ⟨hfr, rfl⟩ | ⟨edge, pb, h16, hfr, hlk, hpb, rfl⟩
          · exact ih _ st' h e1 d1 e2 d2
              (hsub2.trans (List.sublist_append_right _ rest))
          · exact ih _ st' h e1 d1 e2 d2
              (hsub2.trans (List.sublist_append_right _ rest))
        | cons₂ _ hsub2 =>
          rcases hcase with ⟨hfr, rfl⟩ | ⟨edge, pb, h16, hfr, hlk, hpb, rfl⟩
          · simp at hfr
          · have hfr2 : some e1 = some edge := hfr
            injection hfr2 with he
            subst he
            have hl1 : List.lookup e1.number ((e1.number, st.next_dfs) :: st.dfs)
                = some st.next_dfs := lookup_cons_self _ _ _
            have hp1 := buildLoop_lookup_persist l md fuel _ st' h e1.number
              st.next_dfs hl1
            have hm2 : (some e2, d2) ∈ rest := List.singleton_sublist.1 hsub2
            obtain ⟨s2, hs2, hle⟩ := buildLoop_stack_assigned l md fuel _ st' h e2 d2
              (List.mem_append.2 (Or.inr hm2))
            have hle2 : st.next_dfs + 1 ≤ s2 := hle
            exact ⟨st.next_dfs, s2, hp1, hs2, by omega⟩
      · next er hbs =>
        cases h

/-- Two siblings that appear in order among their parent's children and are
still untouched (unassigned and unstacked) end up with increasing DFS slots:
the only pop that can stack them stacks them together in child order. -/
theorem buildLoop_sibling_order_aux (l : List Edge) (md : Nat)
    (e1 e2 : Edge) (hpar : e1.parent = e2.parent)
    (hnodup : (l.map Edge.number).Nodup)
    (hch : [e1, e2].Sublist (children l e1.parent)) :
    ∀ fuel st st', buildLoop l md fuel st = .ok st' →
      (∀ e d, (some e, d) ∈ st.stack → e ∈ l) →
      (st.dfs.lookup e1.number = Option.none ∧ st.dfs.lookup e2.number = Option.none ∧
        (∀ d, (some e1, d) ∉ st.stack) ∧ (∀ d, (some e2, d) ∉ st.stack)) →
      ∀ s1 s2, st'.dfs.lookup e1.number = some s1 →
        st'.dfs.lookup e2.number = some s2 → s1 < s2 := by
  have hinj := List.inj_on_of_nodup_map hnodup
  have hl1 : e1 ∈ l := List.mem_of_mem_filter (hch.subset (List.mem_cons_self _ _))
  have hl2 : e2 ∈ l :=
    List.mem_of_mem_filter (hch.subset (List.mem_cons_of_mem _ (List.mem_cons_self _ _)))
  intro fuel
  induction fuel with
  | zero =>
    intro st st' h
    cases h
  | succ fuel ih =>
    intro st st' h hW hD s1 s2 hs1 hs2
    obtain ⟨hD1, hD2, hD3, hD4⟩ := hD
    unfold buildLoop at h
    split at h
    · next hs =>
      cases h
      rw [hD1] at hs1
      cases hs1
    · next frame rest hs =>
      split at h
      · next st1 hbs =>
        obtain ⟨-, hcase⟩ := buildStep_ok l md frame rest st st1 hbs
        have hW1 : ∀ e d, (some e, d) ∈ st1.stack → e ∈ l := by
          rcases hcase with ⟨hfr, rfl⟩ | ⟨edge, pb, h16, hfr, hlk, hpb, rfl⟩ <;>
          · intro e d hm
            rcases List.mem_append.1 hm with hm | hm
            · exact (mem_frameList hm).1
            · exact hW e d (hs ▸ List.mem_cons_of_mem _ hm)
        rcases hcase with ⟨hfr, rfl⟩ | ⟨edge, pb, h16, hfr, hlk, hpb, rfl⟩
        · -- popped the root frame
          by_cases hk : e1.parent = Option.none
          · -- the one pop that stacks the siblings, in order
            have hfsub : [(some e1, frame.2 + 1), (some e2, frame.2 + 1)].Sublist
                (frameList l Option.none (frame.2 + 1)) := by
              have hmap := List.Sublist.map (fun e => (some e, frame.2 + 1)) hch
              rw [hk] at hmap
              exact hmap
            obtain ⟨t1, t2, ht1, ht2, hlt⟩ := buildLoop_stack_ordered l md fuel _ st' h
              e1 (frame.2 + 1) e2 (frame.2 + 1)
              (hfsub.trans (List.sublist_append_left _ rest))
            rw [hs1] at ht1
            rw [hs2] at ht2
            injection ht1 with ht1
            injection ht2 with ht2
            omega
          · -- untouched state is preserved
            refine ih _ st' h hW1 ⟨hD1, hD2, ?_, ?_⟩ s1 s2 hs1 hs2
            · intro d hm
              rcases List.mem_append.1 hm with hm | hm
              · exact hk (mem_frameList hm).2.1
              · exact hD3 d (hs ▸ List.mem_cons_of_mem _ hm)
            · intro d hm
              rcases List.mem_append.1 hm with hm | hm
              · exact hk (hpar.trans (mem_frameList hm).2.1)
              · exact hD4 d (hs ▸ List.mem_cons_of_mem _ hm)
        · -- popped an edge frame
          have hframe : (some edge, frame.2) ∈ st.stack := by
            rw [hs, ← hfr]
            exact List.mem_cons_self _ _
          have hne1 : edge ≠ e1 := by
            intro he
            subst he
            exact hD3 frame.2 hframe
          have hne2 : edge ≠ e2 := by
            intro he
            subst he
            exact hD4 frame.2 hframe
          have hedge : edge ∈ l := hW edge frame.2 hframe
          have hnn1 : e1.number ≠ edge.number := fun he => hne1 (hinj hedge hl1 he.symm)
          have hnn2 : e2.number ≠ edge.number := fun he => hne2 (hinj hedge hl2 he.symm)
          have hD1' : List.lookup e1.number ((edge.number, st.next_dfs) :: st.dfs)
              = Option.none := by
            rw [lookup_cons_ne _ _ _ _ hnn1]
            exact hD1
          have hD2' : List.lookup e2.number ((edge.number, st.next_dfs) :: st.dfs)
              = Option.none := by
            rw [lookup_cons_ne _ _ _ _ hnn2]
            exact hD2
          by_cases hk : e1.parent = some edge.number
          · -- this pop stacks the siblings, in order
            have hfsub : [(some e1, frame.2 + 1), (some e2, frame.2 + 1)].Sublist
                (frameList l (some edge.number) (frame.2 + 1)) := by
              have hmap := List.Sublist.map (fun e => (some e, frame.2 + 1)) hch
              rw [hk] at hmap
              exact hmap
            obtain ⟨t1, t2, ht1, ht2, hlt⟩ := buildLoop_stack_ordered l md fuel _ st' h
              e1 (frame.2 + 1) e2 (frame.2 + 1)
              (hfsub.trans (List.sublist_append_left _ rest))
            rw [hs1] at ht1
            rw [hs2] at ht2
            injection ht1 with ht1
            injection ht2 with ht2
            omega
          · -- untouched state is preserved
            refine ih _ st' h hW1 ⟨hD1', hD2', ?_, ?_⟩ s1 s2 hs1 hs2
            · intro d hm
              rcases List.mem_append.1 hm with hm | hm
              · exact hk (mem_frameList hm).2.1
              · exact hD3 d (hs ▸ List.mem_cons_of_mem _ hm)
            · intro d hm
              rcases List.mem_append.1 hm with hm | hm
              · exact hk (hpar.trans (mem_frameList hm).2.1)
              · exact hD4 d (hs ▸ List.mem_cons_of_mem _ hm)
      · next er hbs =>
        cases h

/-- Claim C3 amended: DFS preserves input sibling order.  For any input list
on which the build succeeds and whose numbers are distinct, two edges with the
same parent that both received DFS slots received them in their input order
(the earlier sibling gets the strictly smaller slot).  The full claim — that
global input-number rank equals global DFS-slot rank for flagged edges — is
false (see the counterexample). -/
theorem c3_amended_sibling_order (l : List Edge) (st : BuildState)
    (hb : build_tree l 8 = .ok st)
    (hnodup : (l.map Edge.number).Nodup)
    (e1 e2 : Edge) (hsub : [e1, e2].Sublist l) (hpar : e1.parent = e2.parent)
    (s1 s2 : Nat)
    (h1 : st.dfs.lookup e1.number = some s1)
    (h2 : st.dfs.lookup e2.number = some s2) :
    s1 < s2 := by
  have hch : [e1, e2].Sublist (children l e1.parent) := by
    have hf := hsub.filter (fun e => decide (e.parent = e1.parent))
    have heq : List.filter (fun e => decide (e.parent = e1.parent)) [e1, e2]
        = [e1, e2] := by
      rw [List.filter_cons, List.filter_cons]
      simp [hpar]
    rw [heq] at hf
    exact hf
  unfold build_tree at hb
  refine buildLoop_sibling_order_aux l 8 e1 e2 hpar hnodup hch (buildFuel l) _ st hb
    ?_ ⟨rfl, rfl, ?_, ?_⟩ s1 s2 h1 h2
  · intro e d hm
    simp at hm
  · intro d hm
    simp at hm
  · intro d hm
    simp at hm

/-- Witness for the amended C3 on `lX`: its two root edges (numbers 0 and 1)
receive slots 0 and 2, in input order. -/
theorem c3_amended_sibling_order_witness :
    (stOf (build_tree lX 8)).dfs.lookup 0 = some 0 ∧
    (stOf (build_tree lX 8)).dfs.lookup 1 = some 2 ∧ (0 : Nat) < 2 := by
  refine ⟨rfl, rfl, ?_⟩
  exact c3_amended_sibling_order lX (stOf (build_tree lX 8)) rfl (by decide)
    ⟨Option.none, 1, 0, false, false⟩ ⟨Option.none, 2, 1, true, false⟩
    (by decide) rfl 0 2 rfl rfl

/-- Claim C8: a successful build from `k < 16` edges leaves every slot
`s ≥ k` in the sentinel encoding, so for every query its lane is zero in
every match vector and the terminal match bitmask never has bit `s` set: the
returned `Lookup` never reflects an unused slot, whatever the query bytes. -/
theorem c8_unused_slots_never_match (l : List Edge) (st : BuildState)
    (hb : build_tree l 8 = .ok st) (hk : l.length < 16) :
    ∀ s : Fin 16, l.length ≤ (s : Nat) →
      (∀ (q : Fin 8 → Nat) (d : Nat),
        matchesAt st.packed_nodes st.packed_edges q d s = 0) ∧
      (∀ (q : Fin 8 → Nat) (len : Nat),
        Nat.testBit (matchMask st.packed_nodes st.packed_edges q len) (s : Nat) = false) := by
  have hstep : ∀ frame rest st0 st1, st0.stack = frame :: rest →
      buildStep l 8 frame rest st0 = .ok st1 →
      (st0.dfs.length = st0.next_dfs ∧ (st0.dfs.map Prod.fst).Nodup ∧
        (∀ n v, (n, v) ∈ st0.dfs → n ∈ l.map Edge.number) ∧
        (∀ e d, (some e, d) ∈ st0.stack → e ∈ l) ∧
        (∀ s : Fin 16, st0.next_dfs ≤ (s : Nat) → st0.packed_nodes s = 159)) →
      (st1.dfs.length = st1.next_dfs ∧ (st1.dfs.map Prod.fst).Nodup ∧
        (∀ n v, (n, v) ∈ st1.dfs → n ∈ l.map Edge.number) ∧
        (∀ e d, (some e, d) ∈ st1.stack → e ∈ l) ∧
        (∀ s : Fin 16, st1.next_dfs ≤ (s : Nat) → st1.packed_nodes s = 159)) := by
    intro frame rest st0 st1 hs hbs hP
    obtain ⟨hR1, hR2, hR3, hR4, hR5⟩ := hP
    obtain ⟨hdep, hcase⟩ := buildStep_ok l 8 frame rest st0 st1 hbs
    rcases hcase with ⟨hfr, rfl⟩ | ⟨edge, pb, h16, hfr, hlk, hpb, rfl⟩
    · refine ⟨hR1, hR2, hR3, ?_, hR5⟩
      intro e d hm
      rcases List.mem_append.1 hm with hm | hm
      · exact (mem_frameList hm).1
      · exact hR4 e d (hs ▸ List.mem_cons_of_mem _ hm)
    · have hedge : edge ∈ l := by
        apply hR4 edge frame.2
        rw [hs, ← hfr]
        exact List.mem_cons_self _ _
      refine ⟨?_, ?_, ?_, ?_, ?_⟩
      · show ((edge.number, st0.next_dfs) :: st0.dfs).length = st0.next_dfs + 1
        simp [hR1]
      · show (((edge.number, st0.next_dfs) :: st0.dfs).map Prod.fst).Nodup
        rw [List.map_cons]
        exact List.nodup_cons.2 ⟨lookup_none_not_mem_keys hlk, hR2⟩
      · intro n v hm
        rcases List.mem_cons.1 hm with hm | hm
        · have hn : n = edge.number := congrArg Prod.fst hm
          subst hn
          exact List.mem_map_of_mem Edge.number hedge
        · exact hR3 n v hm
      · intro e d hm
        rcases List.mem_append.1 hm with hm | hm
        · exact (mem_frameList hm).1
        · exact hR4 e d (hs ▸ List.mem_cons_of_mem _ hm)
      · intro s hls
        have hls' : st0.next_dfs + 1 ≤ (s : Nat) := hls
        have hs16 : s ≠ ⟨st0.next_dfs, h16⟩ := by
          intro he
          subst he
          have h2 : st0.next_dfs + 1 ≤ st0.next_dfs := hls'
          omega
        show writeLane st0.packed_nodes ⟨st0.next_dfs, h16⟩ pb s = 159
        rw [writeLane_ne _ _ _ _ hs16]
        exact hR5 s (by omega)
  have hinit : (([] : List (Nat × Nat)).length = 0 ∧
      (([] : List (Nat × Nat)).map Prod.fst).Nodup ∧
      (∀ n v, ((n, v) : Nat × Nat) ∈ ([] : List (Nat × Nat)) → n ∈ l.map Edge.number) ∧
      (∀ e d, ((some e, d) : Option Edge × Nat) ∈ [((Option.none : Option Edge), 0)] → e ∈ l) ∧
      (∀ s : Fin 16, 0 ≤ (s : Nat) → (fun _ => 159 : Fin 16 → Nat) s = 159)) := by
    refine ⟨rfl, by simp, ?_, ?_, fun s _ => rfl⟩
    · intro n v h
      simp at h
    · intro e d h
      simp at h
  unfold build_tree at hb
  have hfin := buildLoop_ok_invariant l 8
    (fun st0 => st0.dfs.length = st0.next_dfs ∧ (st0.dfs.map Prod.fst).Nodup ∧
      (∀ n v, (n, v) ∈ st0.dfs → n ∈ l.map Edge.number) ∧
      (∀ e d, (some e, d) ∈ st0.stack → e ∈ l) ∧
      (∀ s : Fin 16, st0.next_dfs ≤ (s : Nat) → st0.packed_nodes s = 159))
    hstep (buildFuel l) _ st hb hinit
  obtain ⟨hL, hND, hDom, -, hSent⟩ := hfin
  have hkeys : (st.dfs.map Prod.fst) ⊆ l.map Edge.number := by
    intro k hkm
    rw [List.mem_map] at hkm
    obtain ⟨⟨a, v⟩, hav, rfl⟩ := hkm
    exact hDom a v hav
  have hlen : st.next_dfs ≤ l.length := by
    have h1 := (hND.subperm hkeys).length_le
    rw [List.length_map, List.length_map] at h1
    omega
  intro s hsl
  have hpn : st.packed_nodes s = 159 := hSent s (by omega)
  refine ⟨fun q d => sentinel_lane_zero _ _ q hpn d, fun q len => ?_⟩
  unfold matchMask
  rw [bitmask_testBit _ s.isLt]
  simp only [Fin.eta]
  rw [sentinel_lane_zero st.packed_nodes st.packed_edges q hpn (len - 1), Nat.zero_and]
  simp

/-- Witness for C8 on the single-edge trie of `lG`: slot 5 is unused and its
lane stays zero, and the match mask has no bit 5. -/
theorem c8_unused_slots_never_match_witness :
    matchesAt (stOf (build_tree lG 8)).packed_nodes (stOf (build_tree lG 8)).packed_edges
      (mkq [10]) 3 5 = 0 ∧
    Nat.testBit (matchMask (stOf (build_tree lG 8)).packed_nodes
      (stOf (build_tree lG 8)).packed_edges (mkq [10]) 1) ((5 : Fin 16) : Nat) = false := by
  have h := c8_unused_slots_never_match lG (stOf (build_tree lG 8)) rfl (by decide) 5
    (by decide)
  exact ⟨h.1 (mkq [10]) 3, h.2 (mkq [10]) 1⟩

/-- Claim C1 (code bug): the claimed oracle equivalence fails on the code.
For the §3.1-valid single-edge tree `(root, label 1, number 0, has_value)` and
the query `[1,0,...]` of length 1, the built trie's `traverse` returns `None`
(the depth-1 state admits only nodes bytes equal to `0x80` exactly, and this
root edge's byte is `0xC0`), while the naive reference of src/tests.rs returns
`Value(0)` — the very equality the repository's own randomized test asserts. -/
theorem c1_code_bug_eval :
    build_tree l1 8 = .ok (stOf (build_tree l1 8)) ∧
    traverse (stOf (build_tree l1 8)).packed_nodes
      (stOf (build_tree l1 8)).packed_edges (mkq [1]) 1 = .ok Lookup.none ∧
    testTraverse l1 [1] = Lookup.value 0 :=
  ⟨rfl, rfl, rfl⟩

/-- Claim C2 (code bug): in the depth-1 state the code takes `edge_matches[s]`
only when `nodes_packed[s]` equals `0x80` exactly, not whenever bit 7 is set.
For the trie built from the single edge `(root, 10, number 0, has_branch)`
(nodes byte `0xA0`) the query `[10,...]` of length 1 returns `None`, not the
`Branch(0)` the claim (Scenario G) requires; the naive reference returns
`Branch(0)`. -/
theorem c2_code_bug_eval :
    traverse (stOf (build_tree lG 8)).packed_nodes
      (stOf (build_tree lG 8)).packed_edges (mkq [10]) 1 = .ok Lookup.none ∧
    testTraverse lG [10] = Lookup.branch 0 :=
  ⟨rfl, rfl⟩

/-- Claim C4 counterexample: `ByteTrie16::new` does not fail on a non-root
edge whose parent number does not occur in the set — it returns normally, and
the unreachable edge is silently dropped (no DFS slot is assigned at all). -/
theorem c4_counterexample :
    (ByteTrie16_new lMissing).isOk = true ∧
    (stOf (ByteTrie16_new lMissing)).next_dfs = 0 :=
  ⟨rfl, rfl⟩

/-- Claim C4 amended: `ByteTrie16::new` does not detect malformed parent
references.  Edges whose parent references form a cycle are silently skipped
(no slot assigned), and two edges with the same parent sharing a label are
both accepted (both get slots); in each case `new` returns normally. -/
theorem c4_amended_no_detection :
    (ByteTrie16_new lMissing).isOk = true ∧
    (ByteTrie16_new lCycle).isOk = true ∧
    (stOf (ByteTrie16_new lCycle)).next_dfs = 0 ∧
    (ByteTrie16_new lDupSib).isOk = true ∧
    (stOf (ByteTrie16_new lDupSib)).next_dfs = 2 :=
  ⟨rfl, rfl, rfl, rfl, rfl⟩

/-- Claim C3 counterexample: on the §3.1-valid input `lX`, the value-bearing
edge with number 1 has input-order rank 0 (no value edge has a smaller
number) but occupies DFS slot 2 with DFS-order rank 1 (the value edge with
number 2 sits at slot 1): the two rank definitions of the oracle do not
coincide. -/
theorem c3_counterexample :
    (build_tree lX 8).isOk = true ∧
    (stOf (build_tree lX 8)).dfs.lookup 1 = some 2 ∧
    numberRank lX Edge.has_value 1 = 0 ∧
    slotRank lX (stOf (build_tree lX 8)).dfs Edge.has_value 2 = 1 ∧
    numberRank lX Edge.has_value 1 ≠
      slotRank lX (stOf (build_tree lX 8)).dfs Edge.has_value 2 :=
  ⟨rfl, rfl, rfl, rfl, by decide⟩

/-- Claim C7 (code bug): the maximal tree `lMax` (16 edges, depth exactly 8)
does build without error, and the over-large and over-deep inputs do fail —
but the length-8 query `[1..8]` spelling the deepest root-to-edge path returns
`None` instead of the terminal edge's classification `Value(1)`, because the
path's root edge carries `has_value` (nodes byte `0xC0 ≠ 0x80`), the same
root-flag equality bug the repository's own randomized test trips over. -/
theorem c7_code_bug_eval :
    (ByteTrie16_new lMax).isOk = true ∧
    (ByteTrie16_new lTooMany).isOk = false ∧
    (ByteTrie16_new lDeep9).isOk = false ∧
    traverse (stOf (ByteTrie16_new lMax)).packed_nodes
      (stOf (ByteTrie16_new lMax)).packed_edges (fun i => (i : Nat) + 1) 8 =
      .ok Lookup.none ∧
    testTraverse lMax [1, 2, 3, 4, 5, 6, 7, 8] = Lookup.value 1 :=
  ⟨rfl, rfl, rfl, rfl, rfl⟩

end Arbolito
